import Mathlib

/-
Verification of the worker-pool program in src/threadpool/src/main.rs.

The program is concurrent Rust: a `ThreadPool` owning an `mpsc` channel
(`sender : Option<Sender<Job>>`) and a vector of `Worker`s, each worker a
thread looping { lock the shared receiver, recv, unlock, then run the job
under `panic::catch_unwind` }.  We embed it as a small-step transition
system on an explicit global state.  Every transition rule corresponds to
an atomic step of the source:

  * `Step.submit`      — `ThreadPool::execute` (lines 69-81),
  * `Step.recv`        — the braced block `{ let lock = receiver.lock().unwrap();
                          lock.recv() }` returning `Ok(job)` (lines 18-24),
  * `Step.recvClosed`  — the same block returning `Err` followed by `break`
                          (lines 38-41),
  * `Step.finish`      — `panic::catch_unwind(..)(job)` plus the error
                          logging and looping back (lines 26-36),
  * `Step.dropSender`  — `drop(self.sender.take())` in `Drop` (line 86),
  * `Step.joinWorker`  — one iteration of the `while let Some(worker) =
                          self.workers.pop()` join loop (lines 90-99).

Interleaving of any number of producers and the N worker threads is the
quantification over traces (`Reachable`, reflexive-transitive closure of
`Step`).  The mpsc channel is a single FIFO buffer: all `send`s go through
clones of one `Sender`, and `recv` under the mutex takes the oldest
element; `send` fails exactly when every receiver handle is gone, which
happens when every worker thread has exited (for size 0, already at
construction time, since the only `Arc` clones live in worker closures).
-/

/-- Payload of a Rust panic as observed by `downcast_ref::<&str>()` in the
worker (lines 31-35): either a `&str` payload or any other (downcast
fails). -/
inductive Panic where
  | strPayload (s : String)
  | anyPayload
deriving DecidableEq, Repr

/-- What a job's body does when run: return normally or panic. -/
inductive JobOutcome where
  | ok
  | panics (p : Panic)
deriving DecidableEq, Repr

/-- A submitted job (`type Job = Box<dyn FnOnce() + Send + 'static>`).
A job has no result channel; its only observable is its side effect,
which we abstract by an identifier, plus whether running it panics. -/
structure Job where
  jid : Nat
  outcome : JobOutcome
deriving DecidableEq, Repr

/-- Embedding of `panic::catch_unwind(AssertUnwindSafe(|| { job(); }))` (lines 26-28):
a normal return yields `Ok(())`, a panic is caught and yields `Err`
carrying the payload.  Total: no panic escapes this call. -/
def catchUnwind (o : JobOutcome) : Except Panic Unit :=
  match o with
  | .ok => .ok ()
  | .panics p => .error p

/-- The `error!` message logged by the worker when a job panicked
(lines 30-36): a `&str` payload is printed itself, any other payload is
printed with `{:?}`, which for `Box<dyn Any + Send>` renders as
`Any { .. }`. -/
def panicLogMessage (id : Nat) (p : Panic) : String :=
  match p with
  | .strPayload s => "Worker " ++ toString id ++ " job panicked: " ++ s
  | .anyPayload => "Worker " ++ toString id ++ " job panicked: Any \x7b .. \x7d"

/-- Status of one worker thread.  `waiting` = blocked in or about to call
`recv`; `executing j` = running job `j`; `terminated` = left the loop via
`break` and the thread function returned; `panicked` = the thread itself
died of an uncaught panic (the state space admits it; reachability will
rule it out). -/
inductive WStatus where
  | waiting
  | executing (j : Job)
  | terminated
  | panicked
deriving DecidableEq, Repr

/-- A worker thread holds its `Arc<Mutex<Receiver<Job>>>` clone until its
thread function ends, so the channel's receiver is deallocated exactly
when every worker is `terminated` or `panicked`. -/
def threadDone : WStatus → Bool
  | .terminated => true
  | .panicked => true
  | _ => false

/-- Global state of the pool, its channel and its worker threads. -/
structure PoolState where
  /-- Whether `self.sender.is_some()`: the producer handle has not been taken. -/
  senderAlive : Bool
  /-- Buffered jobs of the mpsc channel, oldest first. -/
  queue : List Job
  /-- Status of worker thread `i`, for `i < N`. -/
  workers : List WStatus
  /-- Ids still in `self.workers` (the `Vec<Worker>`), in vector order;
  `Drop` pops from the back and joins. -/
  pool : List Nat
  /-- Jobs whose execution has completed (normally or by caught panic),
  in order of completion. -/
  executed : List Job
  /-- The `error!` lines emitted for panicked jobs, in order. -/
  panicLogs : List String
  /-- The receiver mutex is poisoned (a thread panicked while holding it). -/
  poisoned : Bool
  /-- Jobs accepted by `execute` (those for which it returned `Ok`), in
  channel order. -/
  accepted : List Job
deriving DecidableEq, Repr

/-- Rust `mpsc::Sender::send` succeeds iff some receiver handle is still
alive: here, iff some worker thread has not finished. -/
def receiverAlive (s : PoolState) : Bool :=
  s.workers.any (fun w => !(threadDone w))

/-- Outcome of `ThreadPool::execute` (lines 69-81). -/
inductive ExecResult where
  | ok
  | sendError (j : Job)
  | shuttingDown
deriving DecidableEq, Repr

/-- The `Err` message carried by a failing `execute`: `send` errors are
`mpsc::SendError` ("sending on a closed channel"), and a taken sender
yields the literal string of line 79. -/
def ExecResult.message : ExecResult → Option String
  | .ok => none
  | .sendError _ => some "sending on a closed channel"
  | .shuttingDown => some "[EXECUTE] Sender is shutting down"

/-- Embedding of `ThreadPool::execute` (lines 69-81): if the sender was taken, return
the shutting-down error; otherwise `send` the boxed job, which enqueues
it iff a receiver is alive and otherwise returns it in a `SendError`
(propagated by `?`). -/
def ThreadPool.execute (s : PoolState) (j : Job) : ExecResult × PoolState :=
  if s.senderAlive then
    if receiverAlive s then
      (.ok, { s with queue := s.queue ++ [j], accepted := s.accepted ++ [j] })
    else
      (.sendError j, s)
  else
    (.shuttingDown, s)

/-- Embedding of `ThreadPool::new(size)` (lines 56-67): fresh channel, `size` workers
each spawned into its loop (initially waiting on `recv`), worker vector
`[0, …, size-1]`.  For `size = 0` the local `Arc` is dropped when `new`
returns and no clone exists, so the receiver is already gone. -/
def ThreadPool.new (size : Nat) : PoolState :=
  { senderAlive := true
    queue := []
    workers := List.replicate size .waiting
    pool := List.range size
    executed := []
    panicLogs := []
    poisoned := false
    accepted := [] }

/-- Embedding of `receiver.lock().unwrap()` (line 19): returns the guard, unless the
mutex is poisoned, in which case `unwrap` panics. -/
def lockUnwrap (poisoned : Bool) : Option Unit :=
  if poisoned then none else some ()

/-- State after worker `i` dequeues the head job (lines 18-24,
`lock.recv()` returning `Ok`; the guard is dropped at the brace before
the job runs). -/
def recvState (s : PoolState) (i : Nat) (rest : List Job) (j : Job) : PoolState :=
  { s with workers := s.workers.set i (.executing j), queue := rest }

/-- State after worker `i` observes the channel closed and empty
(lines 38-41, `recv` returns `Err`, the worker breaks and its thread
ends). -/
def recvClosedState (s : PoolState) (i : Nat) : PoolState :=
  { s with workers := s.workers.set i .terminated }

/-- State after worker `i` finishes running job `j` under
`catch_unwind` (lines 26-36): the job is done either way, a panic is
caught and logged, and the worker loops back to waiting. -/
def finishState (s : PoolState) (i : Nat) (j : Job) : PoolState :=
  { s with
    workers := s.workers.set i .waiting
    executed := s.executed ++ [j]
    panicLogs := s.panicLogs ++
      (match catchUnwind j.outcome with
       | .error p => [panicLogMessage i p]
       | .ok _ => []) }

/-- State after `drop(self.sender.take())` (line 86): the producer handle
is gone and the channel is closed for senders. -/
def dropSenderState (s : PoolState) : PoolState :=
  { s with senderAlive := false }

/-- State after one iteration of the join loop in `Drop` (lines 90-99):
the last worker is popped from the vector and its thread joined. -/
def joinWorkerState (s : PoolState) (rest : List Nat) : PoolState :=
  { s with pool := rest }

/-- One atomic step of the system: a producer call, a worker-thread
action, or a step of `Drop`.  Enabling conditions are the blocking
conditions of the source: `recv` returns a job only if one is buffered,
returns `Err` only if the channel is closed and empty, `join` returns
only once the thread has finished. -/
inductive Step : PoolState → PoolState → Prop where
  | submit (s : PoolState) (j : Job) :
      Step s (ThreadPool.execute s j).2
  | recv (s : PoolState) (i : Nat) (j : Job) (rest : List Job)
      (hw : s.workers[i]? = some .waiting)
      (hl : lockUnwrap s.poisoned = some ())
      (hq : s.queue = j :: rest) :
      Step s (recvState s i rest j)
  | recvClosed (s : PoolState) (i : Nat)
      (hw : s.workers[i]? = some .waiting)
      (hl : lockUnwrap s.poisoned = some ())
      (hq : s.queue = [])
      (hs : s.senderAlive = false) :
      Step s (recvClosedState s i)
  | finish (s : PoolState) (i : Nat) (j : Job)
      (hw : s.workers[i]? = some (.executing j)) :
      Step s (finishState s i j)
  | dropSender (s : PoolState)
      (h : s.senderAlive = true) :
      Step s (dropSenderState s)
  | joinWorker (s : PoolState) (i : Nat) (rest : List Nat)
      (hs : s.senderAlive = false)
      (hpool : s.pool = rest ++ [i])
      (hdone : ∃ w, s.workers[i]? = some w ∧ threadDone w = true) :
      Step s (joinWorkerState s rest)

/-- Reachability along any interleaving of producer and worker steps. -/
def Reachable : PoolState → PoolState → Prop :=
  Relation.ReflTransGen Step

/-- Predicate that `ThreadPool::drop` has returned: the sender was taken and the join
loop has popped every worker. -/
def dropReturned (s : PoolState) : Prop :=
  s.senderAlive = false ∧ s.pool = []

/-- The jobs currently being executed by some worker. -/
def statusJob : WStatus → List Job
  | .executing j => [j]
  | _ => []

/-- All jobs currently being executed, in worker-index order. -/
def inflight : List WStatus → List Job
  | [] => []
  | w :: ws => statusJob w ++ inflight ws

/-- Jobs accepted but not yet finished, together with finished ones:
everything the system still holds or has completed. -/
def residualJobs (s : PoolState) : List Job :=
  s.executed ++ inflight s.workers ++ s.queue

/-! ### List helpers -/

lemma inflight_append (a b : List WStatus) :
    inflight (a ++ b) = inflight a ++ inflight b := by
  induction a with
  | nil => rfl
  | cons w t ih => simp [inflight, ih]

lemma split_of_getElem? {α : Type} {l : List α} {i : Nat} {a : α}
    (h : l[i]? = some a) :
    ∃ A B, l = A ++ a :: B ∧ A.length = i := by
  induction l generalizing i with
  | nil => simp at h
  | cons x t ih =>
    cases i with
    | zero =>
      simp only [List.getElem?_cons_zero, Option.some.injEq] at h
      exact ⟨[], t, by simp [h], rfl⟩
    | succ n =>
      simp only [List.getElem?_cons_succ] at h
      obtain ⟨A, B, h1, h2⟩ := ih h
      exact ⟨x :: A, B, by simp [h1], by simp [h2]⟩

lemma set_split {α : Type} (A B : List α) (a b : α) :
    (A ++ a :: B).set A.length b = A ++ b :: B := by
  induction A with
  | nil => rfl
  | cons x t ih => simp [List.set, ih]

lemma mem_of_getElem? {α : Type} {l : List α} {i : Nat} {a : α}
    (h : l[i]? = some a) : a ∈ l := by
  obtain ⟨A, B, rfl, _⟩ := split_of_getElem? h
  simp

lemma inflight_replicate_waiting (n : Nat) :
    inflight (List.replicate n .waiting) = [] := by
  induction n with
  | zero => rfl
  | succ n ih => simp [List.replicate, inflight, statusJob, ih]

/-! ### The reachability invariant -/

/-- Invariant of every reachable state: conservation of jobs (accepted =
finished + running + buffered, as multisets), termination only after the
channel is closed and drained, joined workers are terminated, no worker
thread ever dies of a panic, and the receiver mutex is never poisoned. -/
structure PoolInv (s : PoolState) : Prop where
  perm : (s.accepted : Multiset Job) =
    (s.executed : Multiset Job) + (inflight s.workers : Multiset Job) +
      (s.queue : Multiset Job)
  termClosed : WStatus.terminated ∈ s.workers →
    s.senderAlive = false ∧ s.queue = []
  poolTerm : ∀ k, k < s.workers.length → k ∉ s.pool →
    s.workers[k]? = some .terminated
  noPanic : WStatus.panicked ∉ s.workers
  notPoisoned : s.poisoned = false

lemma inv_new (size : Nat) : PoolInv (ThreadPool.new size) := by
  constructor
  · simp [ThreadPool.new, inflight_replicate_waiting]
  · intro h
    have := List.eq_of_mem_replicate h
    cases this
  · intro k hk hnk
    exfalso
    exact hnk (List.mem_range.mpr (by simpa [ThreadPool.new] using hk))
  · intro h
    have := List.eq_of_mem_replicate h
    cases this
  · rfl

lemma mem_middle_elim {α : Type} {x b : α} (a : α) {A B : List α}
    (h : x ∈ A ++ b :: B) : x = b ∨ x ∈ A ++ a :: B := by
  simp only [List.mem_append, List.mem_cons] at h ⊢
  tauto

lemma coe_append_singleton (l : List Job) (j : Job) :
    ((l ++ [j] : List Job) : Multiset Job) = (l : Multiset Job) + {j} := rfl

lemma inv_submit (s : PoolState) (j : Job) (hs : PoolInv s) :
    PoolInv (ThreadPool.execute s j).2 := by
  by_cases h1 : s.senderAlive = true
  · by_cases h2 : receiverAlive s = true
    · have hred : (ThreadPool.execute s j).2 =
          { s with queue := s.queue ++ [j], accepted := s.accepted ++ [j] } := by
        simp [ThreadPool.execute, h1, h2]
      rw [hred]
      refine ⟨?_, ?_, ?_, ?_, ?_⟩
      · show ((s.accepted ++ [j] : List Job) : Multiset Job) =
          (s.executed : Multiset Job) + (inflight s.workers : Multiset Job) +
            ((s.queue ++ [j] : List Job) : Multiset Job)
        rw [coe_append_singleton, coe_append_singleton, hs.perm]
        ac_rfl
      · intro hmem
        exact absurd (hs.termClosed hmem).1 (by simp [h1])
      · exact hs.poolTerm
      · exact hs.noPanic
      · exact hs.notPoisoned
    · have hred : (ThreadPool.execute s j).2 = s := by
        simp [ThreadPool.execute, h1, h2]
      rw [hred]; exact hs
  · have hred : (ThreadPool.execute s j).2 = s := by
      simp [ThreadPool.execute, h1]
    rw [hred]; exact hs


lemma recv_perm_lemma (acc exec inflA inflB rest : List Job) (j : Job)
    (h : (acc : Multiset Job) = (exec : Multiset Job) +
      ((inflA ++ inflB : List Job) : Multiset Job) +
      ((j :: rest : List Job) : Multiset Job)) :
    (acc : Multiset Job) = (exec : Multiset Job) +
      ((inflA ++ ([j] ++ inflB) : List Job) : Multiset Job) +
      (rest : Multiset Job) := by
  rw [h]
  show (exec : Multiset Job) +
      ((inflA : Multiset Job) + (inflB : Multiset Job)) +
      (j ::ₘ (rest : Multiset Job)) =
    (exec : Multiset Job) +
      ((inflA : Multiset Job) + (j ::ₘ (0 : Multiset Job) + (inflB : Multiset Job))) +
      (rest : Multiset Job)
  simp only [← Multiset.singleton_add]
  ac_rfl

lemma finish_perm_lemma (acc exec inflA inflB q : List Job) (j : Job)
    (h : (acc : Multiset Job) = (exec : Multiset Job) +
      ((inflA ++ ([j] ++ inflB) : List Job) : Multiset Job) +
      (q : Multiset Job)) :
    (acc : Multiset Job) = ((exec ++ [j] : List Job) : Multiset Job) +
      ((inflA ++ inflB : List Job) : Multiset Job) +
      (q : Multiset Job) := by
  rw [h]
  show (exec : Multiset Job) +
      ((inflA : Multiset Job) + (j ::ₘ (0 : Multiset Job) + (inflB : Multiset Job))) +
      (q : Multiset Job) =
    ((exec : Multiset Job) + (j ::ₘ (0 : Multiset Job))) +
      ((inflA : Multiset Job) + (inflB : Multiset Job)) +
      (q : Multiset Job)
  simp only [← Multiset.singleton_add]
  ac_rfl

lemma inv_recv (s : PoolState) (i : Nat) (j : Job) (rest : List Job)
    (hw : s.workers[i]? = some .waiting) (hq : s.queue = j :: rest)
    (hs : PoolInv s) : PoolInv (recvState s i rest j) := by
  obtain ⟨A, B, hAB, hlen⟩ := split_of_getElem? hw
  have hset : s.workers.set i (.executing j) = A ++ .executing j :: B := by
    rw [hAB, ← hlen, set_split]
  have hterm : WStatus.terminated ∉ s.workers := by
    intro hmem
    have h2 := (hs.termClosed hmem).2
    rw [hq] at h2
    cases h2
  refine ⟨?_, ?_, ?_, ?_, ?_⟩
  · show (s.accepted : Multiset Job) =
      (s.executed : Multiset Job) +
        ((inflight (s.workers.set i (.executing j)) : List Job) : Multiset Job) +
        (rest : Multiset Job)
    have hperm := hs.perm
    rw [hAB, hq, inflight_append] at hperm
    simp only [inflight, statusJob, List.nil_append] at hperm
    rw [hset, inflight_append]
    simp only [inflight, statusJob]
    exact recv_perm_lemma _ _ _ _ _ _ hperm
  · intro hmem
    rw [show (recvState s i rest j).workers = A ++ .executing j :: B from hset] at hmem
    rcases mem_middle_elim WStatus.waiting hmem with h | h
    · cases h
    · exact absurd (hAB ▸ h) hterm
  · intro k hk hkp
    exfalso
    have hk' : k < s.workers.length := by
      simpa [recvState] using hk
    exact hterm (mem_of_getElem? (hs.poolTerm k hk' hkp))
  · intro hmem
    rw [show (recvState s i rest j).workers = A ++ .executing j :: B from hset] at hmem
    rcases mem_middle_elim WStatus.waiting hmem with h | h
    · cases h
    · exact absurd (hAB ▸ h) hs.noPanic
  · exact hs.notPoisoned

lemma inv_recvClosed (s : PoolState) (i : Nat)
    (hw : s.workers[i]? = some .waiting) (hq : s.queue = [])
    (hsend : s.senderAlive = false)
    (hs : PoolInv s) : PoolInv (recvClosedState s i) := by
  obtain ⟨A, B, hAB, hlen⟩ := split_of_getElem? hw
  have hset : s.workers.set i .terminated = A ++ .terminated :: B := by
    rw [hAB, ← hlen, set_split]
  refine ⟨?_, ?_, ?_, ?_, ?_⟩
  · show (s.accepted : Multiset Job) =
      (s.executed : Multiset Job) +
        ((inflight (s.workers.set i .terminated) : List Job) : Multiset Job) +
        (s.queue : Multiset Job)
    have hinfl : inflight (s.workers.set i .terminated) = inflight s.workers := by
      rw [hset, hAB, inflight_append, inflight_append]
      simp [inflight, statusJob]
    rw [hinfl]
    exact hs.perm
  · intro _
    exact ⟨hsend, hq⟩
  · intro k hk hkp
    have hk' : k < s.workers.length := by
      simpa [recvClosedState] using hk
    show (s.workers.set i .terminated)[k]? = some .terminated
    by_cases hki : k = i
    · subst hki
      rw [List.getElem?_set_self ((List.getElem?_eq_some.mp hw).1)]
    · rw [List.getElem?_set_ne (fun hik => hki hik.symm)]
      exact hs.poolTerm k hk' hkp
  · intro hmem
    rw [show (recvClosedState s i).workers = A ++ .terminated :: B from hset] at hmem
    rcases mem_middle_elim WStatus.waiting hmem with h | h
    · cases h
    · exact absurd (hAB ▸ h) hs.noPanic
  · exact hs.notPoisoned

lemma inv_finish (s : PoolState) (i : Nat) (j : Job)
    (hw : s.workers[i]? = some (.executing j))
    (hs : PoolInv s) : PoolInv (finishState s i j) := by
  obtain ⟨A, B, hAB, hlen⟩ := split_of_getElem? hw
  have hset : s.workers.set i .waiting = A ++ .waiting :: B := by
    rw [hAB, ← hlen, set_split]
  refine ⟨?_, ?_, ?_, ?_, ?_⟩
  · show (s.accepted : Multiset Job) =
      ((s.executed ++ [j] : List Job) : Multiset Job) +
        ((inflight (s.workers.set i .waiting) : List Job) : Multiset Job) +
        (s.queue : Multiset Job)
    have hperm := hs.perm
    rw [hAB, inflight_append] at hperm
    simp only [inflight, statusJob, List.nil_append] at hperm
    rw [hset, inflight_append]
    simp only [inflight, statusJob, List.nil_append]
    exact finish_perm_lemma _ _ _ _ _ _ hperm
  · intro hmem
    rw [show (finishState s i j).workers = A ++ .waiting :: B from hset] at hmem
    rcases mem_middle_elim (WStatus.executing j) hmem with h | h
    · cases h
    · exact hs.termClosed (hAB ▸ h)
  · intro k hk hkp
    have hk' : k < s.workers.length := by
      simpa [finishState] using hk
    have hold := hs.poolTerm k hk' hkp
    show (s.workers.set i .waiting)[k]? = some .terminated
    by_cases hki : k = i
    · subst hki
      rw [hw] at hold
      cases hold
    · rw [List.getElem?_set_ne (fun hik => hki hik.symm)]
      exact hold
  · intro hmem
    rw [show (finishState s i j).workers = A ++ .waiting :: B from hset] at hmem
    rcases mem_middle_elim (WStatus.executing j) hmem with h | h
    · cases h
    · exact absurd (hAB ▸ h) hs.noPanic
  · exact hs.notPoisoned

lemma inv_dropSender (s : PoolState) (hs : PoolInv s) :
    PoolInv (dropSenderState s) := by
  refine ⟨hs.perm, ?_, hs.poolTerm, hs.noPanic, hs.notPoisoned⟩
  intro hmem
  exact ⟨rfl, (hs.termClosed hmem).2⟩

lemma inv_joinWorker (s : PoolState) (i : Nat) (rest : List Nat)
    (hpool : s.pool = rest ++ [i])
    (hdone : ∃ w, s.workers[i]? = some w ∧ threadDone w = true)
    (hs : PoolInv s) : PoolInv (joinWorkerState s rest) := by
  refine ⟨hs.perm, hs.termClosed, ?_, hs.noPanic, hs.notPoisoned⟩
  intro k hk hkrest
  by_cases hkp : k ∈ s.pool
  · rw [hpool] at hkp
    rcases List.mem_append.mp hkp with h | h
    · exact absurd h hkrest
    · have hki : k = i := by simpa using h
      subst hki
      obtain ⟨w, hw, hdw⟩ := hdone
      cases w with
      | waiting => cases hdw
      | executing j => cases hdw
      | terminated => exact hw
      | panicked => exact absurd (mem_of_getElem? hw) hs.noPanic
  · exact hs.poolTerm k hk hkp

/-- One step preserves the invariant. -/
lemma inv_step {s s' : PoolState} (hs : PoolInv s) (h : Step s s') : PoolInv s' := by
  cases h with
  | submit j => exact inv_submit _ j hs
  | recv i j rest hw hl hq => exact inv_recv _ i j rest hw hq hs
  | recvClosed i hw hl hq hsend => exact inv_recvClosed _ i hw hq hsend hs
  | finish i j hw => exact inv_finish _ i j hw hs
  | dropSender h => exact inv_dropSender _ hs
  | joinWorker i rest hsend hpool hdone => exact inv_joinWorker _ i rest hpool hdone hs

/-- Every state reachable from a fresh pool satisfies the invariant. -/
lemma inv_reachable {size : Nat} {s : PoolState}
    (h : Reachable (ThreadPool.new size) s) : PoolInv s := by
  induction h with
  | refl => exact inv_new size
  | tail _ hstep ih => exact inv_step ih hstep

/-! ### Field bookkeeping along steps -/

lemma execute_cases (s : PoolState) (j : Job) :
    ThreadPool.execute s j =
      (.ok, { s with queue := s.queue ++ [j], accepted := s.accepted ++ [j] }) ∨
    ((ThreadPool.execute s j).2 = s ∧ (ThreadPool.execute s j).1 ≠ .ok) := by
  unfold ThreadPool.execute
  by_cases h1 : s.senderAlive = true <;> by_cases h2 : receiverAlive s = true <;>
    simp [h1, h2]

lemma step_workers_length {s s' : PoolState} (h : Step s s') :
    s'.workers.length = s.workers.length := by
  cases h with
  | submit j =>
    rcases execute_cases s j with h | h
    · rw [h]
    · rw [h.1]
  | recv i j rest hw hl hq => simp [recvState]
  | recvClosed i hw hl hq hsend => simp [recvClosedState]
  | finish i j hw => simp [finishState]
  | dropSender h => rfl
  | joinWorker i rest hsend hpool hdone => rfl

lemma reach_workers_length {size : Nat} {s : PoolState}
    (h : Reachable (ThreadPool.new size) s) : s.workers.length = size := by
  induction h with
  | refl => simp [ThreadPool.new]
  | tail _ hstep ih => rw [step_workers_length hstep, ih]

lemma step_senderAlive_mono {s s' : PoolState} (h : Step s s')
    (hs : s.senderAlive = false) : s'.senderAlive = false := by
  cases h with
  | submit j =>
    rcases execute_cases s j with h | h
    · rw [h]; exact hs
    · rw [h.1]; exact hs
  | recv i j rest hw hl hq => exact hs
  | recvClosed i hw hl hq hsend => exact hs
  | finish i j hw => exact hs
  | dropSender h => rfl
  | joinWorker i rest hsend hpool hdone => exact hs

lemma reach_senderAlive_mono {s t : PoolState} (h : Reachable s t)
    (hs : s.senderAlive = false) : t.senderAlive = false := by
  induction h with
  | refl => exact hs
  | tail _ hstep ih => exact step_senderAlive_mono hstep ih

/-- After the channel is closed, no step introduces new jobs: everything
finished, running or buffered in a later state was already finished,
running or buffered when the channel closed. -/
lemma step_residual_closed {s s' : PoolState} (h : Step s s')
    (hs : s.senderAlive = false) :
    ∀ j, j ∈ residualJobs s' → j ∈ residualJobs s := by
  cases h with
  | submit j' =>
    intro j hj
    have hstay : (ThreadPool.execute s j').2 = s := by
      simp [ThreadPool.execute, hs]
    rwa [hstay] at hj
  | recv i j' rest hw hl hq =>
    intro j hj
    obtain ⟨A, B, hAB, hlen⟩ := split_of_getElem? hw
    have hset : s.workers.set i (.executing j') = A ++ .executing j' :: B := by
      rw [hAB, ← hlen, set_split]
    simp only [residualJobs, recvState] at hj
    rw [hset] at hj
    simp only [residualJobs, hAB, hq]
    simp only [inflight_append, inflight, statusJob, List.append_nil,
      List.nil_append, List.mem_append, List.mem_cons] at hj ⊢
    tauto
  | recvClosed i hw hl hq hsend =>
    intro j hj
    obtain ⟨A, B, hAB, hlen⟩ := split_of_getElem? hw
    have hset : s.workers.set i .terminated = A ++ .terminated :: B := by
      rw [hAB, ← hlen, set_split]
    simp only [residualJobs, recvClosedState] at hj
    rw [hset] at hj
    simp only [residualJobs, hAB]
    simp only [inflight_append, inflight, statusJob, List.append_nil,
      List.nil_append, List.mem_append, List.mem_cons] at hj ⊢
    tauto
  | finish i j' hw =>
    intro j hj
    obtain ⟨A, B, hAB, hlen⟩ := split_of_getElem? hw
    have hset : s.workers.set i .waiting = A ++ .waiting :: B := by
      rw [hAB, ← hlen, set_split]
    simp only [residualJobs, finishState] at hj
    rw [hset] at hj
    simp only [residualJobs, hAB]
    simp only [inflight_append, inflight, statusJob, List.append_nil,
      List.nil_append, List.mem_append, List.mem_cons] at hj ⊢
    tauto
  | dropSender h =>
    rw [h] at hs
    cases hs
  | joinWorker i rest hsend hpool hdone =>
    intro j hj
    exact hj

lemma reach_residual_closed {s t : PoolState} (h : Reachable s t)
    (hs : s.senderAlive = false) :
    ∀ j, j ∈ residualJobs t → j ∈ residualJobs s := by
  induction h with
  | refl => intro j hj; exact hj
  | tail hr hstep ih =>
    intro j hj
    exact ih j (step_residual_closed hstep (reach_senderAlive_mono hr hs) j hj)

/-! ### FIFO order at pool size 1 -/

/-- With one worker, the completion order is literally the submission
order: the accepted list is, as a list, the executed jobs followed by the
in-flight job followed by the buffered queue. -/
def FifoInv (s : PoolState) : Prop :=
  s.accepted = s.executed ++ inflight s.workers ++ s.queue

lemma workers_singleton {s : PoolState} (hlen : s.workers.length = 1) :
    ∃ w, s.workers = [w] := by
  cases hws : s.workers with
  | nil => rw [hws] at hlen; cases hlen
  | cons a t =>
    cases t with
    | nil => exact ⟨a, rfl⟩
    | cons b t' => rw [hws] at hlen; simp at hlen

lemma fifo_step {s s' : PoolState} (hlen : s.workers.length = 1)
    (hinv : FifoInv s) (h : Step s s') :
    FifoInv s' ∧ s'.workers.length = 1 := by
  refine ⟨?_, by rw [step_workers_length h, hlen]⟩
  obtain ⟨w, hws⟩ := workers_singleton hlen
  have hinv' : s.accepted = s.executed ++ inflight s.workers ++ s.queue := hinv
  cases h with
  | submit j =>
    rcases execute_cases s j with hc | hc
    · have h2 : (ThreadPool.execute s j).2 =
          { s with queue := s.queue ++ [j], accepted := s.accepted ++ [j] } := by
        rw [hc]
      rw [h2]
      show s.accepted ++ [j] =
        s.executed ++ inflight s.workers ++ (s.queue ++ [j])
      rw [hinv', List.append_assoc]
    · rw [hc.1]; exact hinv
  | recv i j rest hw0 hl hq =>
    have hi : i = 0 := by
      cases i with
      | zero => rfl
      | succ n => rw [hws] at hw0; simp at hw0
    subst hi
    rw [hws] at hw0
    simp only [List.getElem?_cons_zero, Option.some.injEq] at hw0
    subst hw0
    show s.accepted = s.executed ++ inflight (s.workers.set 0 (.executing j)) ++ rest
    rw [hinv', hws, hq]
    simp [inflight, statusJob, List.set]
  | recvClosed i hw0 hl hq hsend =>
    have hi : i = 0 := by
      cases i with
      | zero => rfl
      | succ n => rw [hws] at hw0; simp at hw0
    subst hi
    rw [hws] at hw0
    simp only [List.getElem?_cons_zero, Option.some.injEq] at hw0
    subst hw0
    show s.accepted = s.executed ++ inflight (s.workers.set 0 .terminated) ++ s.queue
    rw [hinv', hws]
    simp [inflight, statusJob, List.set]
  | finish i j hw0 =>
    have hi : i = 0 := by
      cases i with
      | zero => rfl
      | succ n => rw [hws] at hw0; simp at hw0
    subst hi
    rw [hws] at hw0
    simp only [List.getElem?_cons_zero, Option.some.injEq] at hw0
    subst hw0
    show s.accepted =
      (s.executed ++ [j]) ++ inflight (s.workers.set 0 .waiting) ++ s.queue
    rw [hinv', hws]
    simp [inflight, statusJob, List.set]
  | dropSender h => exact hinv
  | joinWorker i rest hsend hpool hdone => exact hinv


lemma fifo_reachable {s : PoolState} (h : Reachable (ThreadPool.new 1) s) :
    FifoInv s ∧ s.workers.length = 1 := by
  induction h with
  | refl =>
    constructor
    · show ([] : List Job) = [] ++ inflight (List.replicate 1 .waiting) ++ []
      simp [inflight, statusJob, List.replicate]
    · rfl
  | tail _ hstep ih => exact fifo_step ih.2 ih.1 hstep

/-! ### A waiting worker can drain the whole queue -/

/-- From any state whose mutex is not poisoned and where worker `i` is
waiting, there is a schedule in which worker `i` alone receives and runs
every buffered job: the queue is drained, every drained job is executed,
and the worker is waiting again. -/
lemma worker_drains_queue (q : List Job) :
    ∀ (s : PoolState) (i : Nat), s.queue = q →
      s.workers[i]? = some .waiting → s.poisoned = false →
      ∃ t, Reachable s t ∧ t.executed = s.executed ++ s.queue ∧
        t.workers[i]? = some .waiting ∧ t.queue = [] ∧
        t.senderAlive = s.senderAlive := by
  induction q with
  | nil =>
    intro s i hq hw hp
    exact ⟨s, Relation.ReflTransGen.refl, by rw [hq]; simp, hw, hq, rfl⟩
  | cons j rest ih =>
    intro s i hq hw hp
    have hilt : i < s.workers.length := (List.getElem?_eq_some.mp hw).1
    have hstep1 : Step s (recvState s i rest j) :=
      Step.recv s i j rest hw (by simp [lockUnwrap, hp]) hq
    have hw1 : (recvState s i rest j).workers[i]? = some (.executing j) := by
      show (s.workers.set i (.executing j))[i]? = some (.executing j)
      rw [List.getElem?_set_self hilt]
    have hstep2 : Step (recvState s i rest j)
        (finishState (recvState s i rest j) i j) :=
      Step.finish _ i j hw1
    have hw2 : (finishState (recvState s i rest j) i j).workers[i]? =
        some .waiting := by
      show ((s.workers.set i (.executing j)).set i .waiting)[i]? = some .waiting
      rw [List.getElem?_set_self (by simpa using hilt)]
    have hq2 : (finishState (recvState s i rest j) i j).queue = rest := rfl
    have hp2 : (finishState (recvState s i rest j) i j).poisoned = false := hp
    obtain ⟨t, hreach, hexec, hw', hq', hsend⟩ :=
      ih (finishState (recvState s i rest j) i j) i hq2 hw2 hp2
    refine ⟨t, ?_, ?_, hw', hq', hsend⟩
    · exact Relation.ReflTransGen.head hstep1
        (Relation.ReflTransGen.head hstep2 hreach)
    · rw [hexec, hq]
      show s.executed ++ [j] ++ rest = s.executed ++ j :: rest
      simp

/-! ### The zero-size pool -/

/-- From `ThreadPool::new(0)` nothing ever happens: there is no worker to
receive, `send` always fails, so the queue and the execution record stay
empty forever. -/
lemma zero_pool_static {t : PoolState} (h : Reachable (ThreadPool.new 0) t) :
    t.workers = [] ∧ t.queue = [] ∧ t.executed = [] ∧ t.accepted = [] := by
  induction h with
  | refl => exact ⟨rfl, rfl, rfl, rfl⟩
  | @tail b c hr hstep ih =>
    obtain ⟨hw, hq, he, ha⟩ := ih
    cases hstep with
    | submit j =>
      have hrecv : receiverAlive b = false := by
        simp [receiverAlive, hw]
      have hstay : (ThreadPool.execute b j).2 = b := by
        unfold ThreadPool.execute
        rw [hrecv]
        by_cases hs : b.senderAlive = true <;> simp [hs]
      rw [hstay]
      exact ⟨hw, hq, he, ha⟩
    | recv i j rest hw0 hl hq0 =>
      rw [hw] at hw0
      simp at hw0
    | recvClosed i hw0 hl hq0 hsend =>
      rw [hw] at hw0
      simp at hw0
    | finish i j hw0 =>
      rw [hw] at hw0
      simp at hw0
    | dropSender hs => exact ⟨hw, hq, he, ha⟩
    | joinWorker i rest hsend hpool hdone => exact ⟨hw, hq, he, ha⟩

/-! ### Terminated workers -/

lemma inflight_nil_of_terminated (ws : List WStatus)
    (h : ∀ w ∈ ws, w = WStatus.terminated) : inflight ws = [] := by
  induction ws with
  | nil => rfl
  | cons w t ih =>
    have hw := h w (by simp)
    rw [hw]
    show statusJob .terminated ++ inflight t = []
    rw [ih (fun x hx => h x (by simp [hx]))]
    rfl

lemma all_terminated_of_dropReturned {size : Nat} {s : PoolState}
    (hreach : Reachable (ThreadPool.new size) s) (hdrop : dropReturned s) :
    ∀ w ∈ s.workers, w = WStatus.terminated := by
  have hinv := inv_reachable hreach
  intro w hwmem
  obtain ⟨k, hk, hkw⟩ := List.mem_iff_getElem.mp hwmem
  have hterm := hinv.poolTerm k hk (by rw [hdrop.2]; simp)
  rw [List.getElem?_eq_getElem hk, hkw] at hterm
  simpa using hterm

/-- While the sender is alive in a reachable state of a pool of size at
least one, some worker thread is still running, so the channel's
receiver side is alive and `send` succeeds. -/
lemma receiverAlive_of_live {size : Nat} {s : PoolState}
    (hreach : Reachable (ThreadPool.new size) s) (hN : 1 ≤ size)
    (hlive : s.senderAlive = true) : receiverAlive s = true := by
  have hinv := inv_reachable hreach
  have hlen : s.workers.length = size := reach_workers_length hreach
  have h0 : 0 < s.workers.length := by rw [hlen]; omega
  have hw0 : s.workers[0]? = some (s.workers.get ⟨0, h0⟩) := by
    rw [List.getElem?_eq_getElem h0]
    rfl
  cases hcase : s.workers.get ⟨0, h0⟩ with
  | terminated =>
    rw [hcase] at hw0
    have := (hinv.termClosed (mem_of_getElem? hw0)).1
    rw [hlive] at this
    cases this
  | panicked =>
    rw [hcase] at hw0
    exact absurd (mem_of_getElem? hw0) hinv.noPanic
  | waiting =>
    rw [hcase] at hw0
    apply List.any_eq_true.mpr
    exact ⟨.waiting, mem_of_getElem? hw0, by simp [threadDone]⟩
  | executing j =>
    rw [hcase] at hw0
    apply List.any_eq_true.mpr
    exact ⟨.executing j, mem_of_getElem? hw0, by simp [threadDone]⟩

lemma receiverAlive_finish (s : PoolState) (i : Nat) (j : Job)
    (hw : s.workers[i]? = some (.executing j)) :
    receiverAlive (finishState s i j) = true ∧ receiverAlive s = true := by
  obtain ⟨A, B, hAB, hlen⟩ := split_of_getElem? hw
  have hset : s.workers.set i .waiting = A ++ .waiting :: B := by
    rw [hAB, ← hlen, set_split]
  constructor
  · show (s.workers.set i WStatus.waiting).any (fun w => !(threadDone w)) = true
    rw [hset]
    apply List.any_eq_true.mpr
    exact ⟨.waiting, by simp, by simp [threadDone]⟩
  · show s.workers.any (fun w => !(threadDone w)) = true
    rw [hAB]
    apply List.any_eq_true.mpr
    exact ⟨.executing j, by simp, by simp [threadDone]⟩

lemma string_append_left_cancel {a b c : String} (h : a ++ b = a ++ c) :
    b = c := by
  have hd := congrArg String.data h
  rw [String.data_append, String.data_append] at hd
  have hbc := List.append_cancel_left hd
  cases b
  cases c
  exact congrArg String.mk hbc

/-! ### Concrete executions used as witnesses -/

/-- A job that returns normally. -/
def jOk : Job := ⟨0, .ok⟩

/-- A job that panics with the `&str` payload "boom". -/
def jBoom : Job := ⟨1, .panics (.strPayload "boom")⟩

def w1 : PoolState := (ThreadPool.execute (ThreadPool.new 1) jOk).2
def w2 : PoolState := recvState w1 0 [] jOk
def w3 : PoolState := finishState w2 0 jOk
def w4 : PoolState := dropSenderState w3
def w5 : PoolState := recvClosedState w4 0
def w6 : PoolState := joinWorkerState w5 []

lemma step_w01 : Step (ThreadPool.new 1) w1 := Step.submit _ jOk

lemma step_w12 : Step w1 w2 :=
  Step.recv w1 0 jOk [] (by decide) (by decide) (by decide)

lemma step_w23 : Step w2 w3 := Step.finish w2 0 jOk (by decide)

lemma step_w34 : Step w3 w4 := Step.dropSender w3 (by decide)

lemma step_w45 : Step w4 w5 :=
  Step.recvClosed w4 0 (by decide) (by decide) (by decide) (by decide)

lemma step_w56 : Step w5 w6 :=
  Step.joinWorker w5 0 [] (by decide) (by decide)
    ⟨.terminated, by decide, by decide⟩

lemma reach_w6 : Reachable (ThreadPool.new 1) w6 :=
  Relation.ReflTransGen.head step_w01
    (Relation.ReflTransGen.head step_w12
      (Relation.ReflTransGen.head step_w23
        (Relation.ReflTransGen.head step_w34
          (Relation.ReflTransGen.head step_w45
            (Relation.ReflTransGen.single step_w56)))))

def p1 : PoolState := (ThreadPool.execute (ThreadPool.new 1) jBoom).2
def p2 : PoolState := recvState p1 0 [] jBoom

lemma step_p01 : Step (ThreadPool.new 1) p1 := Step.submit _ jBoom

lemma step_p12 : Step p1 p2 :=
  Step.recv p1 0 jBoom [] (by decide) (by decide) (by decide)

lemma reach_p2 : Reachable (ThreadPool.new 1) p2 :=
  Relation.ReflTransGen.head step_p01 (Relation.ReflTransGen.single step_p12)

def v2 : PoolState := (ThreadPool.execute w1 jBoom).2
def v3 : PoolState := recvState v2 0 [jBoom] jOk
def v4 : PoolState := finishState v3 0 jOk
def v5 : PoolState := recvState v4 0 [] jBoom
def v6 : PoolState := finishState v5 0 jBoom

lemma step_v12 : Step w1 v2 := Step.submit _ jBoom

lemma step_v23 : Step v2 v3 :=
  Step.recv v2 0 jOk [jBoom] (by decide) (by decide) (by decide)

lemma step_v34 : Step v3 v4 := Step.finish v3 0 jOk (by decide)

lemma step_v45 : Step v4 v5 :=
  Step.recv v4 0 jBoom [] (by decide) (by decide) (by decide)

lemma step_v56 : Step v5 v6 := Step.finish v5 0 jBoom (by decide)

lemma reach_v6 : Reachable (ThreadPool.new 1) v6 :=
  Relation.ReflTransGen.head step_w01
    (Relation.ReflTransGen.head step_v12
      (Relation.ReflTransGen.head step_v23
        (Relation.ReflTransGen.head step_v34
          (Relation.ReflTransGen.head step_v45
            (Relation.ReflTransGen.single step_v56)))))

/-! ### The claims -/

/-- C1: for every pool size N ≥ 1, in any reachable state in which the
pool's `drop` has returned, the multiset of jobs accepted by `execute`
equals the multiset of executed jobs: every accepted job was executed
exactly once (none lost, none duplicated, none run by two workers), and
all those executions completed before `drop` returned, for any
interleaving of producer submissions and worker steps. -/
theorem drop_executes_every_accepted_job_once (N : Nat) (hN : 1 ≤ N)
    (s : PoolState) (hreach : Reachable (ThreadPool.new N) s)
    (hdrop : dropReturned s) :
    s.accepted.Perm s.executed ∧
      ∀ j : Job, s.accepted.count j = s.executed.count j := by
  have hinv := inv_reachable hreach
  have hlen : s.workers.length = N := reach_workers_length hreach
  have hterm := all_terminated_of_dropReturned hreach hdrop
  have hqe : s.queue = [] := by
    have h0 : 0 < s.workers.length := by rw [hlen]; omega
    have hw0 : s.workers[0]? = some (s.workers.get ⟨0, h0⟩) := by
      rw [List.getElem?_eq_getElem h0]
      rfl
    have hmem := mem_of_getElem? hw0
    have heq := hterm _ hmem
    exact (hinv.termClosed (heq ▸ hmem)).2
  have hin : inflight s.workers = [] := inflight_nil_of_terminated _ hterm
  have hperm := hinv.perm
  rw [hqe, hin] at hperm
  have hcoe : (s.accepted : Multiset Job) = (s.executed : Multiset Job) := by
    simpa using hperm
  have hp : s.accepted.Perm s.executed := Multiset.coe_eq_coe.mp hcoe
  exact ⟨hp, fun j => hp.count_eq j⟩

/-- C1 witness: a concrete run on a pool of size 1 in which one job is
accepted, after whose drop the accepted and executed lists agree. -/
theorem drop_executes_every_accepted_job_once_witness :
    w6.accepted.Perm w6.executed :=
  (drop_executes_every_accepted_job_once 1 (by decide) w6 reach_w6
    ⟨by decide, by decide⟩).1

/-- C4: once `drop` has returned, the worker vector has been emptied by
the join loop and every one of the N worker threads has terminated (none
is runnable, none is still executing a job). -/
theorem drop_joins_all_workers (N : Nat) (s : PoolState)
    (hreach : Reachable (ThreadPool.new N) s) (hdrop : dropReturned s) :
    s.pool = [] ∧ s.workers.length = N ∧
      (∀ w ∈ s.workers, w = WStatus.terminated) ∧
      inflight s.workers = [] := by
  have hterm := all_terminated_of_dropReturned hreach hdrop
  exact ⟨hdrop.2, reach_workers_length hreach, hterm,
    inflight_nil_of_terminated _ hterm⟩

/-- C4 witness: the concrete run on a pool of size 1 ends with its single
worker terminated and the worker vector empty. -/
theorem drop_joins_all_workers_witness :
    w6.pool = [] ∧ ∀ w ∈ w6.workers, w = WStatus.terminated :=
  ⟨(drop_joins_all_workers 1 w6 reach_w6 ⟨by decide, by decide⟩).1,
   (drop_joins_all_workers 1 w6 reach_w6 ⟨by decide, by decide⟩).2.2.1⟩

/-- C6: each step of the system changes a worker's status only along the
three-state machine: WAITING → EXECUTING exactly on receipt of the job at
the head of the queue, EXECUTING → WAITING exactly when the job completes
(successfully or with its panic caught and logged), and WAITING →
TERMINATED only when the channel is closed (sender gone) and the queue is
empty.  Any other status — in particular TERMINATED — never changes. -/
theorem worker_state_machine {s s' : PoolState} (h : Step s s') (i : Nat)
    (w w' : WStatus) (hw : s.workers[i]? = some w)
    (hw' : s'.workers[i]? = some w') (hne : w ≠ w') :
    (w = .waiting ∧ ∃ j rest, w' = .executing j ∧ s.queue = j :: rest) ∨
    (∃ j, w = .executing j ∧ w' = .waiting) ∨
    (w = .waiting ∧ w' = .terminated ∧ s.queue = [] ∧
      s.senderAlive = false) := by
  cases h with
  | submit j =>
    exfalso
    have hww : (ThreadPool.execute s j).2.workers = s.workers := by
      rcases execute_cases s j with hc | hc
      · rw [hc]
      · rw [hc.1]
    rw [hww, hw] at hw'
    exact hne (Option.some.inj hw')
  | recv i2 j rest hw0 hl hq =>
    by_cases hii : i = i2
    · subst hii
      have hwq : w = WStatus.waiting := by
        rw [hw0] at hw
        exact (Option.some.inj hw).symm
      have hilt : i < s.workers.length := (List.getElem?_eq_some.mp hw0).1
      have hset : (recvState s i rest j).workers[i]? =
          some (WStatus.executing j) := by
        show (s.workers.set i (.executing j))[i]? = _
        rw [List.getElem?_set_self hilt]
      rw [hset] at hw'
      exact Or.inl ⟨hwq, j, rest, (Option.some.inj hw').symm, hq⟩
    · exfalso
      have hkeep : (recvState s i2 rest j).workers[i]? = s.workers[i]? := by
        show (s.workers.set i2 (.executing j))[i]? = _
        exact List.getElem?_set_ne (fun he => hii he.symm)
      rw [hkeep, hw] at hw'
      exact hne (Option.some.inj hw')
  | recvClosed i2 hw0 hl hq hsend =>
    by_cases hii : i = i2
    · subst hii
      have hwq : w = WStatus.waiting := by
        rw [hw0] at hw
        exact (Option.some.inj hw).symm
      have hilt : i < s.workers.length := (List.getElem?_eq_some.mp hw0).1
      have hset : (recvClosedState s i).workers[i]? =
          some WStatus.terminated := by
        show (s.workers.set i .terminated)[i]? = _
        rw [List.getElem?_set_self hilt]
      rw [hset] at hw'
      exact Or.inr (Or.inr ⟨hwq, (Option.some.inj hw').symm, hq, hsend⟩)
    · exfalso
      have hkeep : (recvClosedState s i2).workers[i]? = s.workers[i]? := by
        show (s.workers.set i2 .terminated)[i]? = _
        exact List.getElem?_set_ne (fun he => hii he.symm)
      rw [hkeep, hw] at hw'
      exact hne (Option.some.inj hw')
  | finish i2 j hw0 =>
    by_cases hii : i = i2
    · subst hii
      have hwq : w = WStatus.executing j := by
        rw [hw0] at hw
        exact (Option.some.inj hw).symm
      have hilt : i < s.workers.length := (List.getElem?_eq_some.mp hw0).1
      have hset : (finishState s i j).workers[i]? = some WStatus.waiting := by
        show (s.workers.set i .waiting)[i]? = _
        rw [List.getElem?_set_self hilt]
      rw [hset] at hw'
      exact Or.inr (Or.inl ⟨j, hwq, (Option.some.inj hw').symm⟩)
    · exfalso
      have hkeep : (finishState s i2 j).workers[i]? = s.workers[i]? := by
        show (s.workers.set i2 .waiting)[i]? = _
        exact List.getElem?_set_ne (fun he => hii he.symm)
      rw [hkeep, hw] at hw'
      exact hne (Option.some.inj hw')
  | dropSender hsend =>
    exfalso
    rw [show (dropSenderState s).workers = s.workers from rfl, hw] at hw'
    exact hne (Option.some.inj hw')
  | joinWorker i2 rest hsend hpool hdone =>
    exfalso
    rw [show (joinWorkerState s rest).workers = s.workers from rfl, hw] at hw'
    exact hne (Option.some.inj hw')

/-- C6 witness: the concrete receive step of the one-job run moves worker
0 from WAITING to EXECUTING on the job at the head of the queue. -/
theorem worker_state_machine_witness :
    (WStatus.waiting = .waiting ∧
      ∃ j rest, WStatus.executing jOk = .executing j ∧ w1.queue = j :: rest) ∨
    (∃ j, WStatus.waiting = WStatus.executing j ∧
      WStatus.executing jOk = .waiting) ∨
    (WStatus.waiting = .waiting ∧ WStatus.executing jOk = .terminated ∧
      w1.queue = [] ∧ w1.senderAlive = false) :=
  worker_state_machine step_w12 0 .waiting (.executing jOk)
    (by decide) (by decide) (by decide)

/-- C3: once shutdown has begun (the sender has been taken), `execute`
fails synchronously with the shutting-down error of line 79, leaves the
pool state unchanged — the rejected job is not enqueued — and a rejected
job that was not already in the system is never executed in any later
reachable state. -/
theorem execute_after_shutdown_rejected (s : PoolState) (j : Job)
    (hs : s.senderAlive = false) :
    (ThreadPool.execute s j).1 = .shuttingDown ∧
      (ThreadPool.execute s j).2 = s ∧
      (ThreadPool.execute s j).1.message =
        some "[EXECUTE] Sender is shutting down" ∧
      (j ∉ residualJobs s → ∀ t, Reachable s t → j ∉ t.executed) := by
  have h1 : (ThreadPool.execute s j).1 = .shuttingDown := by
    simp [ThreadPool.execute, hs]
  refine ⟨h1, by simp [ThreadPool.execute, hs], by rw [h1]; rfl, ?_⟩
  intro hfresh t hreach hmem
  exact hfresh (reach_residual_closed hreach hs j
    (List.mem_append.mpr (Or.inl (List.mem_append.mpr (Or.inl hmem)))))

/-- C3 witness: in the concrete run, after the sender is taken a fresh
job is rejected with the shutting-down error and the state does not
change. -/
theorem execute_after_shutdown_rejected_witness :
    (ThreadPool.execute w4 jBoom).1 = .shuttingDown ∧
      (ThreadPool.execute w4 jBoom).2 = w4 :=
  ⟨(execute_after_shutdown_rejected w4 jBoom (by decide)).1,
   (execute_after_shutdown_rejected w4 jBoom (by decide)).2.1⟩

/-- C5 counterexample: the pool built by `new(0)` has not begun shutdown
— its sender is still alive — and yet `execute` fails (the `send` returns
`SendError` because no receiver exists), so "execute never fails while
the pool constructed by new is still live" is false at size 0. -/
theorem execute_can_fail_on_live_pool :
    (ThreadPool.new 0).senderAlive = true ∧
      (ThreadPool.execute (ThreadPool.new 0) ⟨0, JobOutcome.ok⟩).1 =
        ExecResult.sendError ⟨0, JobOutcome.ok⟩ ∧
      (ThreadPool.execute (ThreadPool.new 0) ⟨0, JobOutcome.ok⟩).1 ≠
        ExecResult.ok := by
  refine ⟨rfl, rfl, ?_⟩
  decide

/-- C5 (amended to pools of size ≥ 1): in every reachable state of a pool
constructed with size N ≥ 1 whose shutdown has not begun (the sender
still exists), `execute` succeeds on every job and enqueues it. -/
theorem execute_succeeds_while_live (N : Nat) (hN : 1 ≤ N) (s : PoolState)
    (hreach : Reachable (ThreadPool.new N) s)
    (hlive : s.senderAlive = true) (j : Job) :
    (ThreadPool.execute s j).1 = .ok ∧
      (ThreadPool.execute s j).2.queue = s.queue ++ [j] ∧
      (ThreadPool.execute s j).2.accepted = s.accepted ++ [j] := by
  have hrecv := receiverAlive_of_live hreach hN hlive
  refine ⟨?_, ?_, ?_⟩ <;> simp [ThreadPool.execute, hlive, hrecv]

/-- C5 witness: on the fresh pool of size 1 a job is accepted. -/
theorem execute_succeeds_while_live_witness :
    (ThreadPool.execute (ThreadPool.new 1) jOk).1 = .ok :=
  (execute_succeeds_while_live 1 (by decide) (ThreadPool.new 1)
    Relation.ReflTransGen.refl (by decide) jOk).1

/-- C2: a worker that is running a job whose execution panics does not
terminate and does not propagate the failure: the completion step (panic
caught by `catch_unwind`, failure logged) is an enabled transition that
returns the worker to WAITING, and from there the worker alone can go on
to receive and execute the entire remaining queue. -/
theorem panicking_job_does_not_kill_worker (N : Nat) (s : PoolState)
    (i : Nat) (j : Job) (p : Panic)
    (hreach : Reachable (ThreadPool.new N) s)
    (hw : s.workers[i]? = some (.executing j))
    (hp : j.outcome = .panics p) :
    Step s (finishState s i j) ∧
      (finishState s i j).workers[i]? = some .waiting ∧
      (finishState s i j).panicLogs =
        s.panicLogs ++ [panicLogMessage i p] ∧
      ∃ t, Reachable (finishState s i j) t ∧
        t.executed = s.executed ++ [j] ++ s.queue ∧
        t.workers[i]? = some .waiting ∧ t.queue = [] := by
  have hinv := inv_reachable hreach
  have hilt : i < s.workers.length := (List.getElem?_eq_some.mp hw).1
  have hstep : Step s (finishState s i j) := Step.finish s i j hw
  have hww : (finishState s i j).workers[i]? = some .waiting := by
    show (s.workers.set i .waiting)[i]? = _
    rw [List.getElem?_set_self hilt]
  have hlog : (finishState s i j).panicLogs =
      s.panicLogs ++ [panicLogMessage i p] := by
    show s.panicLogs ++ _ = _
    rw [hp]
    rfl
  have hpois : (finishState s i j).poisoned = false := hinv.notPoisoned
  obtain ⟨t, hreach2, hexec, hw2, hq2, _⟩ :=
    worker_drains_queue (finishState s i j).queue (finishState s i j) i rfl
      hww hpois
  refine ⟨hstep, hww, hlog, t, hreach2, ?_, hw2, hq2⟩
  rw [hexec]
  show (s.executed ++ [j]) ++ s.queue = s.executed ++ [j] ++ s.queue
  rfl

/-- C2 witness: the concrete pool in which worker 0 holds the panicking
job can complete it and return to WAITING. -/
theorem panicking_job_does_not_kill_worker_witness :
    Step p2 (finishState p2 0 jBoom) ∧
      (finishState p2 0 jBoom).workers[0]? = some WStatus.waiting :=
  ⟨(panicking_job_does_not_kill_worker 1 p2 0 jBoom (.strPayload "boom")
      reach_p2 (by decide) rfl).1,
   (panicking_job_does_not_kill_worker 1 p2 0 jBoom (.strPayload "boom")
      reach_p2 (by decide) rfl).2.1⟩

/-- C7: with pool size 1, execution order is submission order: in every
reachable state the executed list is a prefix of the accepted list, so
for two distinct jobs A submitted before B (by the single producer), B is
never executed before A — every execution of B is preceded by the
execution of A. -/
theorem fifo_at_size_one (s : PoolState)
    (hreach : Reachable (ThreadPool.new 1) s) :
    (∃ rest, s.accepted = s.executed ++ rest) ∧
      ∀ (p q qe : Nat) (A B : Job), s.accepted.Nodup →
        s.accepted[p]? = some A → s.accepted[q]? = some B → p < q →
        s.executed[qe]? = some B →
        ∃ pe, pe < qe ∧ s.executed[pe]? = some A := by
  obtain ⟨hfifo', hlen⟩ := fifo_reachable hreach
  have hfifo0 : s.accepted = s.executed ++ inflight s.workers ++ s.queue :=
    hfifo'
  have hrest : s.accepted = s.executed ++ (inflight s.workers ++ s.queue) := by
    rw [hfifo0, List.append_assoc]
  have hpre : ∀ (k : Nat) (x : Job),
      s.executed[k]? = some x → s.accepted[k]? = some x := by
    intro k x hk
    have hklt : k < s.executed.length := (List.getElem?_eq_some.mp hk).1
    rw [hrest, List.getElem?_append, if_pos hklt]
    exact hk
  refine ⟨⟨inflight s.workers ++ s.queue, hrest⟩, ?_⟩
  intro p q qe A B hnd hp hq hpq hqe
  have hqe' : s.accepted[qe]? = some B := hpre qe B hqe
  have hqq : q = qe := by
    obtain ⟨hq1, hq2⟩ := List.getElem?_eq_some.mp hq
    obtain ⟨hq3, hq4⟩ := List.getElem?_eq_some.mp hqe'
    exact (List.Nodup.getElem_inj_iff hnd).mp (hq2.trans hq4.symm)
  subst hqq
  have hqelt : q < s.executed.length := (List.getElem?_eq_some.mp hqe).1
  have hplt : p < s.executed.length := lt_trans hpq hqelt
  refine ⟨p, hpq, ?_⟩
  rw [hrest, List.getElem?_append, if_pos hplt] at hp
  exact hp

/-- C7 witness: in the concrete two-job run (jOk submitted before jBoom,
pool size 1, both executed), every execution of the second job is
preceded by an execution of the first. -/
theorem fifo_at_size_one_witness :
    ∃ pe, pe < 1 ∧ v6.executed[pe]? = some jOk :=
  (fifo_at_size_one v6 reach_v6).2 0 1 1 jOk jBoom (by decide) (by decide)
    (by decide) (by decide) (by decide)

/-- C8: the message logged for a panicking job includes the textual
payload when the panic carried a `&str`, and is the fixed opaque
rendering `Any { .. }` otherwise; the two messages differ whenever the
text differs from the opaque rendering.  Nothing of the failure is
surfaced to the caller of `execute`: submission outcomes, the sender,
the queue and the accepted list are identical after the panicking job
completes. -/
theorem panic_logging_distinguishes_payload (id : Nat) (txt : String)
    (s : PoolState) (i : Nat) (j : Job)
    (hw : s.workers[i]? = some (.executing j)) :
    panicLogMessage id (.strPayload txt) =
        ("Worker " ++ toString id ++ " job panicked: ") ++ txt ∧
      panicLogMessage id .anyPayload =
        ("Worker " ++ toString id ++ " job panicked: ") ++ "Any \x7b .. \x7d" ∧
      (txt ≠ "Any \x7b .. \x7d" →
        panicLogMessage id (.strPayload txt) ≠
          panicLogMessage id .anyPayload) ∧
      (∀ j2, (ThreadPool.execute (finishState s i j) j2).1 =
        (ThreadPool.execute s j2).1) ∧
      (finishState s i j).senderAlive = s.senderAlive ∧
      (finishState s i j).queue = s.queue ∧
      (finishState s i j).accepted = s.accepted := by
  have hmsg1 : panicLogMessage id (.strPayload txt) =
      ("Worker " ++ toString id ++ " job panicked: ") ++ txt := rfl
  have hmsg2 : panicLogMessage id .anyPayload =
      ("Worker " ++ toString id ++ " job panicked: ") ++ "Any \x7b .. \x7d" := by
    show "Worker " ++ toString id ++ " job panicked: Any \x7b .. \x7d" = _
    rw [String.append_assoc, String.append_assoc]
    rfl
  refine ⟨hmsg1, hmsg2, ?_, ?_, rfl, rfl, rfl⟩
  · intro hne heq
    rw [hmsg1, hmsg2] at heq
    exact hne (string_append_left_cancel heq)
  · intro j2
    obtain ⟨hra', hra⟩ := receiverAlive_finish s i j hw
    by_cases hsa : s.senderAlive = true
    · have hsa' : (finishState s i j).senderAlive = true := hsa
      simp [ThreadPool.execute, hsa, hsa', hra, hra']
    · have hsa0 : s.senderAlive = false := by simpa using hsa
      have hsa' : (finishState s i j).senderAlive = false := hsa0
      simp [ThreadPool.execute, hsa0, hsa']

/-- C8 witness: instantiated at worker 0 of the concrete panicking run
with payload text "boom". -/
theorem panic_logging_distinguishes_payload_witness :
    panicLogMessage 0 (.strPayload "boom") =
      ("Worker " ++ toString 0 ++ " job panicked: ") ++ "boom" :=
  (panic_logging_distinguishes_payload 0 "boom" p2 0 jBoom (by decide)).1

/-- C9: `new(0)` creates no worker, so the only receiver handle dies when
`new` returns: every call to `execute` fails with a send error carrying
the job back, the state is unchanged (nothing queued), and in every state
reachable from the zero-size pool nothing is ever queued, accepted or
executed — the pool rejects rather than silently retaining jobs. -/
theorem zero_size_pool_rejects_everything (j : Job) :
    (ThreadPool.new 0).workers = [] ∧
      receiverAlive (ThreadPool.new 0) = false ∧
      (ThreadPool.execute (ThreadPool.new 0) j).1 = .sendError j ∧
      (ThreadPool.execute (ThreadPool.new 0) j).2 = ThreadPool.new 0 ∧
      ∀ t, Reachable (ThreadPool.new 0) t →
        t.executed = [] ∧ t.queue = [] ∧ t.accepted = [] := by
  have h0 : receiverAlive (ThreadPool.new 0) = false := rfl
  refine ⟨rfl, h0, ?_, ?_, ?_⟩
  · rfl
  · rfl
  · intro t ht
    obtain ⟨h1, h2, h3, h4⟩ := zero_pool_static ht
    exact ⟨h3, h2, h4⟩

/-- C9 witness: instantiated at a concrete job and the initial state of
the zero-size pool itself. -/
theorem zero_size_pool_rejects_everything_witness :
    (ThreadPool.execute (ThreadPool.new 0) jOk).1 = .sendError jOk ∧
      (ThreadPool.new 0).executed = [] :=
  ⟨(zero_size_pool_rejects_everything jOk).2.2.1,
   ((zero_size_pool_rejects_everything jOk).2.2.2.2 (ThreadPool.new 0)
      Relation.ReflTransGen.refl).1⟩

/-- C10: no worker thread ever dies of a panic — `catch_unwind` is total
on job outcomes, and because the job runs after the receiver guard is
dropped, the mutex is never poisoned: in every reachable state
`receiver.lock().unwrap()` succeeds. -/
theorem mutex_never_poisoned (N : Nat) (s : PoolState)
    (hreach : Reachable (ThreadPool.new N) s) :
    s.poisoned = false ∧ lockUnwrap s.poisoned = some () ∧
      WStatus.panicked ∉ s.workers ∧
      ∀ o : JobOutcome, catchUnwind o = .ok () ∨
        ∃ p, catchUnwind o = .error p := by
  have hinv := inv_reachable hreach
  refine ⟨hinv.notPoisoned, by rw [hinv.notPoisoned]; rfl, hinv.noPanic, ?_⟩
  intro o
  cases o with
  | ok => exact Or.inl rfl
  | panics p => exact Or.inr ⟨p, rfl⟩

/-- C10 witness: in the state where worker 0 holds the panicking job, the
mutex is not poisoned and the lock can be taken. -/
theorem mutex_never_poisoned_witness :
    p2.poisoned = false ∧ lockUnwrap p2.poisoned = some () :=
  ⟨(mutex_never_poisoned 1 p2 reach_p2).1,
   (mutex_never_poisoned 1 p2 reach_p2).2.1⟩
